import Mathlib

/-!
# Verification of the crossword CSP solver

A shallow embedding of `src/crossword/generate.py` (class `CrosswordCreator`)
together with the parts of the puzzle data model (`Variable`, `Crossword`) that
the solver consumes.  The `Crossword` data model itself (file `crossword.py`)
is not among the analyzed sources, so it is modelled from the spec (§3 DATA
MODEL): slots carry (row, column, direction, length); the overlap table maps a
pair of crossing slots to the pair of character indices where they intersect,
or to `none`; `neighbors v` returns every other slot overlapping `v`.

Modelling conventions:
* Python sets and dicts are modelled as lists in iteration order; a Python
  dict is an association list whose keys are distinct.
* Python strings are `List Char`; string indexing `w[i]` is `w.getD i ' '`.
  Python raises `IndexError` out of range; every index evaluated on a path
  that can return `True` is in range (length checks precede overlap checks,
  and per the spec overlap indices are valid positions in each slot), so the
  default character is never the value of a comparison that decides a
  returned `True`.
* Python's stable `sorted` is modelled by `List.insertionSort`, which is also
  stable; a stable sort by a total preorder key is unique, so the two agree.
* The truthiness test `if self.revise(x, y):` on an `Optional[bool]` is
  modelled by `truthy : Option Bool → Bool`.
-/

/-- Modelled from the spec: direction of a slot, one of ACROSS or DOWN. -/
inductive Direction where
  | across
  | down
deriving DecidableEq

/-- Modelled from the spec: a slot ("variable" in CSP terminology),
identified by (row, column, direction, length); equal iff all four fields
match. -/
structure Variable where
  i : Nat
  j : Nat
  dir : Direction
  length : Nat
deriving DecidableEq

/-- A word: a Python string as a list of characters. -/
abbrev Word := List Char

/-- Modelled from the spec: the puzzle structure consumed by the solver —
its set of slots (as a list, in iteration order), the overlap table, and the
raw word list.  Grid geometry (dimensions, fillable cells) is only used by
the rendering code, which is out of scope. -/
structure Crossword where
  vars : List Variable
  overlaps : Variable → Variable → Option (Nat × Nat)
  words : List Word

/-- Modelled from the spec: `Crossword.neighbors(v)` — all slots overlapping
`v` (other than `v` itself). -/
def neighbors (cw : Crossword) (v : Variable) : List Variable :=
  cw.vars.filter (fun w => decide (w ≠ v) && (cw.overlaps v w).isSome)

/-- The domain map `self.domains`: each slot's current candidate words.
Python's `dict` slot → set-of-words, modelled as a function to lists. -/
abbrev Domains := Variable → List Word

/-- An assignment: a Python dict from variables to words, modelled as an
association list in insertion order with distinct keys. -/
abbrev Assignment := List (Variable × Word)

/-- Dict key list, in insertion order. -/
def keys (a : Assignment) : List Variable := a.map Prod.fst

/-- Dict value list, in insertion order. -/
def values (a : Assignment) : List Word := a.map Prod.snd

/-- Dict read `a[v]`, as an `Option` (Python raises `KeyError` when absent;
every read in the embedded code is guarded by a membership test). -/
def lookup (a : Assignment) (v : Variable) : Option Word :=
  (a.find? (fun p => decide (p.1 = v))).map Prod.snd

/-- Dict write `a[v] = w`: replaces the value in place if `v` is already a
key (keeping its position, as Python dicts do), otherwise appends. -/
def dictInsert (a : Assignment) (v : Variable) (w : Word) : Assignment :=
  if a.any (fun p => decide (p.1 = v)) then
    a.map (fun p => if p.1 = v then (p.1, w) else p)
  else a ++ [(v, w)]

/-- Source `CrosswordCreator.__init__`: every variable's domain starts as a copy of
the full word list. -/
def initialDomains (cw : Crossword) : Domains := fun _ => cw.words

/-- Source `CrosswordCreator.enforce_node_consistency`: for each variable, the words
whose length differs from the slot length are collected and removed.  The
effect on each domain is to keep exactly the words of the slot's length. -/
def enforce_node_consistency (d : Domains) : Domains :=
  fun v => (d v).filter (fun w => decide (w.length = v.length))

/-- Source `CrosswordCreator.revise(x, y)`: if `x` and `y` overlap at `(i, j)`,
collect every word of `Domain(x)` whose character at `i` matches no
`Domain(y)` word's character at `j`, and remove them from `Domain(x)`.

The source initializes `revised = False` but the update inside the loop is
the typo `revise = True`, which writes an unrelated local variable, and the
function body contains no `return` statement at all — so the Python function
returns `None` on every path.  The second component of the result is that
returned value. -/
def revise (cw : Crossword) (x y : Variable) (d : Domains) :
    Domains × Option Bool :=
  match cw.overlaps x y with
  | none => (d, none)
  | some (i, j) =>
    let charY := (d y).map (fun wY => wY.getD j ' ')
    let keep := (d x).filter (fun wX => decide (wX.getD i ' ' ∈ charY))
    (fun v => if v = x then keep else d v, none)

/-- Python truthiness of an `Optional[bool]`: `None` and `False` are falsy. -/
def truthy : Option Bool → Bool
  | some b => b
  | none => false

/-- The initial worklist of `ac3` when called with `arcs=None`: all ordered
pairs of distinct overlapping variables, in nested-loop order. -/
def allArcs (cw : Crossword) : List (Variable × Variable) :=
  cw.vars.flatMap (fun v1 =>
    (cw.vars.filter
        (fun v2 => decide (v1 ≠ v2) && (cw.overlaps v1 v2).isSome)).map
      (fun v2 => (v1, v2)))

/-- The `while queue:` loop of `CrosswordCreator.ac3`: pop the front arc,
call `revise`; if the call's returned value is truthy, fail on an emptied
domain or push back the arcs `(z, x)` for the neighbors `z ≠ y`; otherwise
continue.  Because `revise` returns `None` on every path, the truthy branch
is dead code; it is embedded nonetheless, and its termination obligation is
discharged from that very fact. -/
def ac3Loop (cw : Crossword) (queue : List (Variable × Variable))
    (d : Domains) : Domains × Bool :=
  match queue with
  | [] => (d, true)
  | (x, y) :: rest =>
    let r := revise cw x y d
    if hrev : truthy r.2 then
      if (r.1 x).isEmpty then (r.1, false)
      else
        ac3Loop cw
          (rest ++ ((neighbors cw x).filter (fun z => decide (z ≠ y))).map
            (fun z => (z, x)))
          r.1
    else ac3Loop cw rest r.1
termination_by queue.length
decreasing_by
  · exfalso
    have h' : truthy (revise cw x y d).2 = true := hrev
    rcases hov : cw.overlaps x y with _ | ⟨i, j⟩ <;>
      simp [revise, hov, truthy] at h'
  · simp

/-- Source `CrosswordCreator.ac3`: with `arcs=None` start from all arcs, otherwise
from the given list; run the worklist loop. -/
def ac3 (cw : Crossword) (arcs : Option (List (Variable × Variable)))
    (d : Domains) : Domains × Bool :=
  ac3Loop cw (match arcs with | none => allArcs cw | some l => l) d

/-- Source `CrosswordCreator.assignment_complete`:
`set(assignment.keys()) == self.crossword.variables and all(assignment.values())`
— the key set equals the variable set, and every value is truthy (a
non-empty string). -/
def assignment_complete (cw : Crossword) (a : Assignment) : Bool :=
  ((keys a).all (fun v => decide (v ∈ cw.vars)) &&
      cw.vars.all (fun v => decide (v ∈ keys a))) &&
    (values a).all (fun w => decide (w ≠ []))

/-- Source `CrosswordCreator.consistent`: fail if the number of distinct values
differs from the number of distinct keys; then for each bound slot check its
word's length and, for each bound neighbor, agreement at the overlap.
(The unreachable `none` overlap case — `neighbors` only returns overlapping
slots — would be a `TypeError` in Python; it is embedded as a passed check.) -/
def consistent (cw : Crossword) (a : Assignment) : Bool :=
  if ((values a).dedup).length ≠ ((keys a).dedup).length then false
  else
    a.all (fun p =>
      decide (p.2.length = p.1.length) &&
        (neighbors cw p.1).all (fun n =>
          match lookup a n with
          | none => true
          | some wn =>
            match cw.overlaps p.1 n with
            | none => true
            | some (i, j) => decide (p.2.getD i ' ' = wn.getD j ' ')))

/-- The count maintained in `num_eliminated[wordV]` by
`CrosswordCreator.order_domain_values`: over every unassigned neighbor of
`var` and every word in that neighbor's domain, the number of pairs whose
overlap characters disagree with `wordV`. -/
def num_eliminated (cw : Crossword) (d : Domains) (a : Assignment)
    (var : Variable) (wordV : Word) : Nat :=
  (((neighbors cw var).filter (fun n => (lookup a n).isNone)).map
      (fun n =>
        match cw.overlaps var n with
        | some (i, j) =>
          (d n).countP (fun wordN => decide (wordV.getD i ' ' ≠ wordN.getD j ' '))
        | none => 0)).sum

/-- Source `CrosswordCreator.order_domain_values`: pair each domain word with its
elimination count (dict insertion order = domain order) and stable-sort
ascending by count. -/
def order_domain_values (cw : Crossword) (d : Domains) (var : Variable)
    (a : Assignment) : List Word :=
  let items := (d var).map (fun w => (w, num_eliminated cw d a var w))
  (List.insertionSort (fun p q : Word × Nat => p.2 ≤ q.2) items).map Prod.fst

/-- Source `CrosswordCreator.select_unassigned_variable`: sort the unassigned
variables ascending by domain size; if there is exactly one, or the first
two sizes differ, return the first.  Otherwise sort **all** unassigned
variables (not only the size-tied ones) descending by neighbor count and
return the first.  On an empty unassigned list Python raises `IndexError`
(`num_remaining_values[0]`), modelled as `none`. -/
def select_unassigned_variable (cw : Crossword) (d : Domains)
    (a : Assignment) : Option Variable :=
  let unassigned := cw.vars.filter (fun v => (lookup a v).isNone)
  let nrv :=
    List.insertionSort (fun p q : Variable × Nat => p.2 ≤ q.2)
      (unassigned.map (fun v => (v, (d v).length)))
  match nrv with
  | [] => none
  | [p] => some p.1
  | p :: q :: _ =>
    if p.2 ≠ q.2 then some p.1
    else
      let nd :=
        List.insertionSort (fun p q : Variable × Nat => q.2 ≤ p.2)
          (unassigned.map (fun v => (v, (neighbors cw v).length)))
      match nd with
      | [] => none
      | r :: _ => some r.1

/-- Source `CrosswordCreator.backtrack`: return the assignment once complete;
otherwise select a variable and try its domain values in heuristic order,
each on a fresh copy `assignment.copy()` extended with the one new binding;
recurse on consistent extensions and propagate the first success.

The recursion is fuelled: per the spec (§5) recursion depth is bounded by
the slot count, and `solve` supplies fuel `variables.length + 1`, under
which fuel is never exhausted (each level binds one more variable), so the
fuelled function computes exactly the Python recursion. -/
def backtrack (cw : Crossword) (d : Domains) :
    Nat → Assignment → Option Assignment
  | 0, _ => none
  | Nat.succ fuel, a =>
    if assignment_complete cw a then some a
    else
      match select_unassigned_variable cw d a with
      | none => none
      | some var =>
        (order_domain_values cw d var a).findSome? (fun value =>
          let new_assignment := dictInsert a var value
          if consistent cw new_assignment then
            backtrack cw d fuel new_assignment
          else none)

/-- Source `CrosswordCreator.solve`: enforce node consistency, run `ac3` — whose
Boolean result the source **discards** — then search from the empty
assignment. -/
def solve (cw : Crossword) : Option Assignment :=
  let d1 := enforce_node_consistency (initialDomains cw)
  let d2 := (ac3 cw none d1).1
  backtrack cw d2 (cw.vars.length + 1) []

/-- Instrumented copy of `backtrack` counting search nodes (the
"propagation-call counter" observable of spec §8 Example 2): each invocation
of `backtrack` that Python performs counts as one search node; the counter
sums the node and all recursive calls actually made. -/
def btCount (cw : Crossword) (d : Domains) :
    Nat → Assignment → Option Assignment × Nat
  | 0, _ => (none, 0)
  | Nat.succ fuel, a =>
    if assignment_complete cw a then (some a, 1)
    else
      match select_unassigned_variable cw d a with
      | none => (none, 1)
      | some var =>
        (order_domain_values cw d var a).foldl
          (fun acc value =>
            match acc.1 with
            | some _ => acc
            | none =>
              let new_assignment := dictInsert a var value
              if consistent cw new_assignment then
                let r := btCount cw d fuel new_assignment
                (r.1, acc.2 + r.2)
              else acc)
          (none, 1)

/-- Number of search nodes `solve` creates (0 would mean backtracking search
is never entered). -/
def solveNodes (cw : Crossword) : Nat :=
  let d1 := enforce_node_consistency (initialDomains cw)
  let d2 := (ac3 cw none d1).1
  (btCount cw d2 (cw.vars.length + 1) []).2

/-- A heap of dict objects: the object store for the operational model of
`backtrack`'s dict usage.  An index into the list is a reference. -/
abbrev Store := List Assignment

/-- Operational model of `backtrack` in which assignments are dict objects
held in a `Store` and passed by reference, so that mutation is observable:
`new_assignment = assignment.copy()` allocates a fresh object (append), and
`new_assignment[var] = value` mutates that fresh object in place (`set` at
its index).  Returns the final store and the reference of the returned
assignment, `none` for Python's `None`. -/
def btStore (cw : Crossword) (d : Domains) :
    Nat → Store → Nat → Store × Option Nat
  | 0, store, _ => (store, none)
  | Nat.succ fuel, store, r =>
    let a := store.getD r []
    if assignment_complete cw a then (store, some r)
    else
      match select_unassigned_variable cw d a with
      | none => (store, none)
      | some var =>
        (order_domain_values cw d var a).foldl
          (fun acc value =>
            match acc.2 with
            | some _ => acc
            | none =>
              let st := acc.1
              let nref := st.length
              let st1 := st ++ [st.getD r []]
              let st2 := st1.set nref (dictInsert (st1.getD nref []) var value)
              if consistent cw (st2.getD nref []) then
                btStore cw d fuel st2 nref
              else (st2, none))
          (store, none)

/-! Concrete puzzle instances used as test inputs and witnesses. -/

/-- A length-1 across slot at the origin. -/
def vX : Variable := ⟨0, 0, Direction.across, 1⟩

/-- A length-1 down slot at the origin, crossing `vX` at index 0 of each. -/
def vY : Variable := ⟨0, 0, Direction.down, 1⟩

/-- Two crossing length-1 slots. -/
def cwXY : Crossword :=
  ⟨[vX, vY],
    fun v w =>
      if (v = vX ∧ w = vY) ∨ (v = vY ∧ w = vX) then some (0, 0) else none,
    [['a'], ['b']]⟩

/-- Domains for `cwXY` in which no pair agrees at the crossing: revision
must empty both domains. -/
def dXY : Domains := fun v => if v = vX then [['a']] else [['b']]

/-- A single length-2 slot. -/
def vS : Variable := ⟨0, 0, Direction.across, 2⟩

/-- A crossword whose word list has no word of the required length, so node
consistency empties the only domain. -/
def cwS : Crossword := ⟨[vS], fun _ _ => none, [['a']]⟩

/-- Slots for the variable-selection test: `vA5`, `vB5` have the two
smallest domains (tied), `vC5` has a larger domain but the highest degree. -/
def vA5 : Variable := ⟨0, 0, Direction.across, 2⟩

/-- Second smallest-domain slot (degree 2). -/
def vB5 : Variable := ⟨1, 0, Direction.across, 2⟩

/-- The highest-degree slot (degree 3), with a domain of size 3. -/
def vC5 : Variable := ⟨2, 0, Direction.across, 9⟩

/-- A further slot (degree 2), domain of size 5. -/
def vD5 : Variable := ⟨3, 0, Direction.across, 2⟩

/-- Crossword in which `vC5` overlaps `vA5`, `vB5` and `vD5`, and `vB5`
also overlaps `vD5`: degrees are A:1, B:2, C:3, D:2. -/
def cw5 : Crossword :=
  ⟨[vA5, vB5, vC5, vD5],
    fun v w =>
      if (v = vA5 ∧ w = vC5) ∨ (v = vC5 ∧ w = vA5) ∨
          (v = vB5 ∧ w = vC5) ∨ (v = vC5 ∧ w = vB5) ∨
          (v = vC5 ∧ w = vD5) ∨ (v = vD5 ∧ w = vC5) ∨
          (v = vB5 ∧ w = vD5) ∨ (v = vD5 ∧ w = vB5) then some (0, 0)
      else none,
    []⟩

/-- Domain sizes A:1, B:1, C:3, D:5. -/
def d5 : Domains := fun v =>
  if v = vA5 then [['a']]
  else if v = vB5 then [['b']]
  else if v = vC5 then [['c'], ['d'], ['e']]
  else [['f'], ['g'], ['h'], ['k'], ['l']]

/-- A single length-1 slot for solvable-instance witnesses. -/
def vW : Variable := ⟨0, 0, Direction.across, 1⟩

/-- A solvable one-slot crossword. -/
def cwW : Crossword := ⟨[vW], fun _ _ => none, [['a']]⟩

/-- Its initial domains. -/
def dW : Domains := initialDomains cwW

/-- Claim-side predicate: every slot of the crossword is assigned a word. -/
def CompleteAssigned (cw : Crossword) (a : Assignment) : Prop :=
  ∀ v ∈ cw.vars, ∃ w, lookup a v = some w

/-- Claim-side predicate: all assigned words are pairwise distinct. -/
def DistinctWords (a : Assignment) : Prop := (values a).Nodup

/-- Claim-side predicate: every assigned word's length equals its slot's
length. -/
def LengthOk (a : Assignment) : Prop := ∀ p ∈ a, p.2.length = p.1.length

/-- Claim-side predicate: every pair of distinct assigned slots that overlap
agree character-wise at the overlap indices. -/
def OverlapsAgree (cw : Crossword) (a : Assignment) : Prop :=
  ∀ p ∈ a, ∀ q ∈ a, p.1 ≠ q.1 →
    ∀ i j, cw.overlaps p.1 q.1 = some (i, j) →
      p.2.getD i ' ' = q.2.getD j ' '

/-! ## Basic facts about the embedded functions -/

/-- The function `revise` returns `None` on every path (its body has no `return`). -/
theorem revise_snd (cw : Crossword) (x y : Variable) (d : Domains) :
    (revise cw x y d).2 = none := by
  rcases hov : cw.overlaps x y with _ | ⟨i, j⟩ <;> simp [revise, hov]

/-- The `ac3` worklist loop on an empty queue succeeds at once. -/
theorem ac3Loop_nil (cw : Crossword) (d : Domains) :
    ac3Loop cw [] d = (d, true) := by
  simp [ac3Loop]

/-- One step of the `ac3` worklist loop: since `revise` returns `None`, the
emptiness check and the re-enqueueing branch are never taken, and the loop
merely applies `revise`'s domain update and moves on. -/
theorem ac3Loop_cons (cw : Crossword) (x y : Variable)
    (rest : List (Variable × Variable)) (d : Domains) :
    ac3Loop cw ((x, y) :: rest) d = ac3Loop cw rest (revise cw x y d).1 := by
  rw [ac3Loop]
  simp [truthy, revise_snd]

/-! ## Claim C2 — `ac3` return value (code bug) -/

/-- C2: refuted on the code.  On `cwXY`/`dXY` propagation empties both
domains, yet `ac3` returns `True`: because `revise` returns `None` on every
path, the loop's `if self.revise(x, y):` guard is never taken, so `ac3`
neither detects the emptied domain nor ever returns `False`, contradicting
its own docstring ("return False if one or more domains end up empty"). -/
theorem ac3_true_despite_empty_domain :
    (ac3 cwXY none dXY).2 = true ∧ (ac3 cwXY none dXY).1 vX = [] ∧
      (ac3 cwXY none dXY).1 vY = [] := by
  have harcs : allArcs cwXY = [(vX, vY), (vY, vX)] := by decide
  have h2 : ac3 cwXY none dXY =
      (ac3Loop cwXY [(vX, vY), (vY, vX)] dXY) := by
    rw [ac3, harcs]
  rw [h2, ac3Loop_cons, ac3Loop_cons, ac3Loop_nil]
  refine ⟨rfl, ?_, ?_⟩ <;> decide

/-! ## Claim C3 — `revise` return value (code bug) -/

/-- C3: refuted on the code.  On `cwXY`/`dXY`, `revise(vX, vY)` removes the
word "a" from Domain(vX) (the removal condition itself is as specified), yet
the function returns `None` — never `True` — because the intended
`revised = True` is the typo `revise = True` and the body has no `return`
statement, contradicting its docstring ("Return True if a revision was made
…; return False if no revision was made"). -/
theorem revise_removes_but_returns_none :
    (revise cwXY vX vY dXY).1 vX = [] ∧ dXY vX = [['a']] ∧
      (revise cwXY vX vY dXY).2 = none ∧
      truthy (revise cwXY vX vY dXY).2 = false := by decide

/-! ## Claim C4 — `solve` must fail before search (code bug) -/

/-- C4: refuted on the code.  On `cwS` (one length-2 slot, word list
`["a"]`), node consistency empties the slot's domain, yet `solve` — which
discards `ac3`'s return value and calls `backtrack` unconditionally —
creates a search node (`solveNodes cwS = 1`, not 0) before returning the
"no solution" result. -/
theorem solve_enters_search_despite_empty_domain :
    enforce_node_consistency (initialDomains cwS) vS = [] ∧
      (ac3 cwS none (enforce_node_consistency (initialDomains cwS))).1 vS
        = [] ∧
      solveNodes cwS = 1 ∧ solve cwS = none := by
  have harcs : allArcs cwS = [] := by decide
  have h2 : ac3 cwS none (enforce_node_consistency (initialDomains cwS)) =
      (enforce_node_consistency (initialDomains cwS), true) := by
    rw [ac3, harcs, ac3Loop_nil]
  refine ⟨by decide, by rw [h2]; decide, ?_, ?_⟩
  · show (btCount cwS (ac3 cwS none _).1 _ []).2 = 1
    rw [h2]
    decide
  · show backtrack cwS (ac3 cwS none _).1 _ [] = none
    rw [h2]
    decide

/-! ## Claim C5 — variable selection heuristic (code bug) -/

/-- C5: refuted on the code.  On `cw5`/`d5` with the empty assignment, the
two smallest domains (`vA5`, `vB5`, size 1) tie, and the code then picks the
highest-degree slot among **all** unassigned slots — returning `vC5`, whose
domain has size 3, not the minimal size 1.  This contradicts the method's
own docstring ("Choose the variable with the minimum number of remaining
values in its domain"). -/
theorem select_unassigned_variable_not_mrv :
    select_unassigned_variable cw5 d5 [] = some vC5 ∧
      (d5 vC5).length = 3 ∧ (d5 vA5).length = 1 ∧
      vA5 ∈ cw5.vars ∧ lookup [] vA5 = none := by decide

/-! ## Claim C10 — `assignment_complete` -/

/-- C10: `assignment_complete` returns `True` only if the key set of the
assignment equals the crossword's variable set and every assigned value is
a non-empty (truthy) word. -/
theorem assignment_complete_only_if (cw : Crossword) (a : Assignment)
    (h : assignment_complete cw a = true) :
    (∀ v ∈ cw.vars, v ∈ keys a) ∧ (∀ v ∈ keys a, v ∈ cw.vars) ∧
      ∀ p ∈ a, p.2 ≠ [] := by
  simp only [assignment_complete, Bool.and_eq_true, List.all_eq_true,
    decide_eq_true_eq] at h
  refine ⟨h.1.2, h.1.1, fun p hp => ?_⟩
  exact h.2 p.2 (List.mem_map.mpr ⟨p, hp, rfl⟩)

/-- Witness for C10 at a concrete complete assignment. -/
theorem assignment_complete_only_if_w :
    assignment_complete cwW [(vW, ['a'])] = true ∧
      ((∀ v ∈ cwW.vars, v ∈ keys [(vW, ['a'])]) ∧
        (∀ v ∈ keys [(vW, ['a'])], v ∈ cwW.vars) ∧
        ∀ p ∈ [(vW, ['a'])], p.2 ≠ []) :=
  ⟨by decide, assignment_complete_only_if cwW [(vW, ['a'])] (by decide)⟩

/-! ## Claim C7 — domains only shrink -/

/-- The function `revise` leaves every domain a subset of what it was. -/
theorem revise_fst_subset (cw : Crossword) (x y : Variable) (d : Domains)
    (v : Variable) : (revise cw x y d).1 v ⊆ d v := by
  rcases hov : cw.overlaps x y with _ | ⟨i, j⟩
  · simp [revise, hov]
  · simp only [revise, hov]
    by_cases hv : v = x
    · subst hv
      simp only [if_pos rfl]
      exact (List.filter_sublist _).subset
    · simp [if_neg hv]

/-- The `ac3` worklist loop leaves every domain a subset of what it was. -/
theorem ac3Loop_fst_subset (cw : Crossword)
    (queue : List (Variable × Variable)) :
    ∀ (d : Domains) (v : Variable), (ac3Loop cw queue d).1 v ⊆ d v := by
  induction queue with
  | nil =>
    intro d v
    rw [ac3Loop_nil]
    exact fun _ h => h
  | cons arc rest ih =>
    intro d v
    obtain ⟨x, y⟩ := arc
    rw [ac3Loop_cons]
    exact (ih _ v).trans (revise_fst_subset cw x y d v)

/-- C7: after any run of `enforce_node_consistency`, `revise`, or `ac3`
(with any initial arc list), every slot's domain is a subset of that slot's
domain before the run. -/
theorem domains_only_shrink :
    (∀ (d : Domains) (v : Variable), enforce_node_consistency d v ⊆ d v) ∧
      (∀ (cw : Crossword) (x y : Variable) (d : Domains) (v : Variable),
        (revise cw x y d).1 v ⊆ d v) ∧
      ∀ (cw : Crossword) (arcs : Option (List (Variable × Variable)))
        (d : Domains) (v : Variable), (ac3 cw arcs d).1 v ⊆ d v := by
  refine ⟨fun d v => (List.filter_sublist _).subset, revise_fst_subset, ?_⟩
  intro cw arcs d v
  exact ac3Loop_fst_subset cw _ d v

/-! ## Dictionary lemmas -/

/-- A key is absent exactly when `lookup` gives `none`. -/
theorem lookup_eq_none_iff (a : Assignment) (v : Variable) :
    lookup a v = none ↔ v ∉ keys a := by
  simp only [lookup, Option.map_eq_none', List.find?_eq_none,
    decide_eq_true_eq, keys, List.mem_map]
  constructor
  · rintro h ⟨p, hp, rfl⟩
    exact h p hp rfl
  · intro h p hp hpv
    exact h ⟨p, hp, hpv⟩

/-- A successful `lookup` comes from an entry of the association list. -/
theorem lookup_mem {a : Assignment} {v : Variable} {w : Word}
    (h : lookup a v = some w) : (v, w) ∈ a := by
  simp only [lookup, Option.map_eq_some'] at h
  obtain ⟨p, hp, rfl⟩ := h
  have hmem := List.mem_of_find?_eq_some hp
  have hpv := List.find?_some hp
  simp only [decide_eq_true_eq] at hpv
  subst hpv
  exact hmem

/-- With distinct keys, `lookup` finds every entry's value. -/
theorem lookup_of_mem_nodup :
    ∀ (a : Assignment), (keys a).Nodup →
      ∀ (v : Variable) (w : Word), (v, w) ∈ a → lookup a v = some w := by
  intro a
  induction a with
  | nil =>
    intro _ v w h
    cases h
  | cons p rest ih =>
    intro hnd v w h
    have hnd' : (p.1 :: keys rest).Nodup := hnd
    have hnd2 := List.nodup_cons.mp hnd'
    rcases List.mem_cons.mp h with h | h
    · subst h
      simp [lookup]
    · have hne : ¬ p.1 = v := by
        intro hpv
        exact hnd2.1 (hpv ▸ List.mem_map.mpr ⟨(v, w), h, rfl⟩)
      have hrec := ih hnd2.2 v w h
      simpa [lookup, List.find?_cons, hne] using hrec

/-- A list whose deduplication has full length has no duplicates. -/
theorem nodup_of_dedup_length {α : Type} [DecidableEq α] {l : List α}
    (h : l.dedup.length = l.length) : l.Nodup := by
  have := (List.dedup_sublist l).eq_of_length h
  rw [← this]
  exact List.nodup_dedup l

/-! ## Claim C6 — characterization of `consistent` -/

/-- The behaviour of `consistent` on assignments with distinct keys bound to
slots of the puzzle: it returns `True` exactly when all assigned words are
pairwise distinct, every word has its slot's length, and all overlapping
assigned pairs agree character-wise. -/
theorem consistent_iff_aux (cw : Crossword) (a : Assignment)
    (hsub : ∀ p ∈ a, p.1 ∈ cw.vars) (hnd : (keys a).Nodup) :
    consistent cw a = true ↔
      DistinctWords a ∧ LengthOk a ∧ OverlapsAgree cw a := by
  have hkd : (keys a).dedup = keys a := List.dedup_eq_self.mpr hnd
  have hlv : (values a).length = a.length := List.length_map a Prod.snd
  have hlk : (keys a).length = a.length := List.length_map a Prod.fst
  have hdistinct :
      ((values a).dedup.length = (keys a).dedup.length) ↔ DistinctWords a := by
    rw [hkd, hlk]
    constructor
    · intro h
      exact nodup_of_dedup_length (by rw [h, hlv])
    · intro h
      rw [List.dedup_eq_self.mpr h, hlv]
  rw [consistent]
  by_cases hc : ((values a).dedup).length ≠ ((keys a).dedup).length
  · rw [if_pos hc]
    simp only [Bool.false_eq_true, false_iff]
    rintro ⟨hd, -, -⟩
    exact hc (hdistinct.mpr hd)
  · rw [if_neg hc]
    push_neg at hc
    have hd : DistinctWords a := hdistinct.mp hc
    rw [List.all_eq_true]
    constructor
    · intro hall
      refine ⟨hd, ?_, ?_⟩
      · intro p hp
        have := hall p hp
        simp only [Bool.and_eq_true, decide_eq_true_eq] at this
        exact this.1
      · intro p hp q hq hne i j hov
        have h1 := hall p hp
        simp only [Bool.and_eq_true, List.all_eq_true, decide_eq_true_eq]
          at h1
        have hqn : q.1 ∈ neighbors cw p.1 := by
          simp only [neighbors, List.mem_filter, Bool.and_eq_true,
            decide_eq_true_eq]
          exact ⟨hsub q hq, Ne.symm hne, by rw [hov]; rfl⟩
        have h2 := h1.2 q.1 hqn
        rw [lookup_of_mem_nodup a hnd q.1 q.2 hq, hov] at h2
        simpa using h2
    · rintro ⟨-, hlenok, hagree⟩ p hp
      simp only [Bool.and_eq_true, List.all_eq_true, decide_eq_true_eq]
      refine ⟨hlenok p hp, ?_⟩
      intro n hn
      rcases hl : lookup a n with _ | wn
      · rfl
      · rcases hov2 : cw.overlaps p.1 n with _ | ⟨i, j⟩
        · rfl
        · simp only [decide_eq_true_eq]
          have hmem : (n, wn) ∈ a := lookup_mem hl
          have hne : p.1 ≠ n := by
            simp only [neighbors, List.mem_filter, Bool.and_eq_true,
              decide_eq_true_eq] at hn
            exact Ne.symm hn.2.1
          exact hagree p hp (n, wn) hmem hne i j hov2

/-- C6: `consistent(assignment)` returns True iff, in the given (partial or
complete) assignment, all assigned words are pairwise distinct, every
assigned word's length equals its slot's length, and every assigned slot
agrees character-wise with every assigned neighboring slot at their overlap
indices.  Completeness is not required; the function is pure (it takes the
assignment and returns a Boolean, touching no domain). -/
theorem consistent_iff (cw : Crossword) (a : Assignment)
    (hsub : ∀ p ∈ a, p.1 ∈ cw.vars) (hnd : (keys a).Nodup) :
    consistent cw a = true ↔
      DistinctWords a ∧ LengthOk a ∧ OverlapsAgree cw a :=
  consistent_iff_aux cw a hsub hnd

/-- Witness for C6 on a concrete consistent assignment. -/
theorem consistent_iff_w :
    (∀ p ∈ [(vW, ['a'])], p.1 ∈ cwW.vars) ∧ (keys [(vW, ['a'])]).Nodup ∧
      (consistent cwW [(vW, ['a'])] = true ↔
        DistinctWords [(vW, ['a'])] ∧ LengthOk [(vW, ['a'])] ∧
          OverlapsAgree cwW [(vW, ['a'])]) :=
  ⟨by decide, by decide, consistent_iff cwW [(vW, ['a'])] (by decide) (by decide)⟩

/-! ## Claim C1 — soundness of returned complete assignments -/

/-- The head of a stable sort of tagged variables is one of the variables. -/
theorem sortedHead_mem (r : (Variable × Nat) → (Variable × Nat) → Prop)
    [DecidableRel r] (l : List Variable) (g : Variable → Nat)
    (p : Variable × Nat) (t : List (Variable × Nat))
    (h : List.insertionSort r (l.map (fun v => (v, g v))) = p :: t) :
    p.1 ∈ l := by
  have hp : p ∈ List.insertionSort r (l.map (fun v => (v, g v))) := by
    rw [h]
    exact List.mem_cons_self p t
  have hm := (List.perm_insertionSort r (l.map (fun v => (v, g v)))).subset hp
  obtain ⟨v, hv, heq⟩ := List.mem_map.mp hm
  rw [← heq]
  exact hv

/-- Whatever `select_unassigned_variable` returns is an unassigned variable
of the puzzle. -/
theorem select_unassigned_spec (cw : Crossword) (d : Domains)
    (a : Assignment) (var : Variable)
    (h : select_unassigned_variable cw d a = some var) :
    var ∈ cw.vars ∧ lookup a var = none := by
  have hkey : ∀ v ∈ cw.vars.filter (fun v => (lookup a v).isNone),
      v ∈ cw.vars ∧ lookup a v = none := by
    intro v hv
    have hm := List.mem_filter.mp hv
    exact ⟨hm.1, by simpa [Option.isNone_iff_eq_none] using hm.2⟩
  simp only [select_unassigned_variable] at h
  rcases hnrv : List.insertionSort (fun p q : Variable × Nat => p.2 ≤ q.2)
      ((cw.vars.filter (fun v => (lookup a v).isNone)).map
        (fun v => (v, (d v).length))) with _ | ⟨p, t⟩
  · rw [hnrv] at h
    cases h
  · rcases t with _ | ⟨q, t2⟩
    · rw [hnrv] at h
      injection h with h2
      subst h2
      exact hkey p.1 (sortedHead_mem _ _ _ p [] hnrv)
    · rw [hnrv] at h
      have h3 : (if p.2 ≠ q.2 then some p.1
          else
            match
              List.insertionSort (fun p q : Variable × Nat => q.2 ≤ p.2)
                ((cw.vars.filter (fun v => (lookup a v).isNone)).map
                  (fun v => (v, (neighbors cw v).length))) with
            | [] => none
            | r :: _ => some r.1) = some var := h
      clear h
      by_cases hpq : p.2 ≠ q.2
      · rw [if_pos hpq] at h3
        injection h3 with h2
        subst h2
        exact hkey p.1 (sortedHead_mem _ _ _ p (q :: t2) hnrv)
      · rw [if_neg hpq] at h3
        rename' h3 => h
        rcases hnd : List.insertionSort (fun p q : Variable × Nat => q.2 ≤ p.2)
            ((cw.vars.filter (fun v => (lookup a v).isNone)).map
              (fun v => (v, (neighbors cw v).length))) with _ | ⟨r0, t0⟩
        · rw [hnd] at h
          cases h
        · rw [hnd] at h
          injection h with h2
          subst h2
          exact hkey r0.1 (sortedHead_mem _ _ _ r0 t0 hnd)

/-- Invariant of the backtracking search: starting from an assignment whose
keys are distinct puzzle variables, any returned assignment is complete (in
the sense of `assignment_complete`), again has distinct puzzle-variable
keys, and — unless it is the unchanged start assignment — passed the
`consistent` check when it was created. -/
theorem backtrack_aux (cw : Crossword) (d : Domains) :
    ∀ (fuel : Nat) (a r : Assignment),
      (∀ p ∈ a, p.1 ∈ cw.vars) → (keys a).Nodup →
      backtrack cw d fuel a = some r →
      assignment_complete cw r = true ∧ (∀ p ∈ r, p.1 ∈ cw.vars) ∧
        (keys r).Nodup ∧ (r = a ∨ consistent cw r = true) := by
  intro fuel
  induction fuel with
  | zero =>
    intro a r _ _ h
    cases h
  | succ fuel ih =>
    intro a r hsub hnd h
    rw [backtrack] at h
    by_cases hc : assignment_complete cw a = true
    · rw [if_pos hc] at h
      injection h with h2
      subst h2
      exact ⟨hc, hsub, hnd, Or.inl rfl⟩
    · rw [if_neg hc] at h
      rcases hsel : select_unassigned_variable cw d a with _ | var
      · rw [hsel] at h
        cases h
      · rw [hsel] at h
        obtain ⟨value, hvmem, hval⟩ := List.exists_of_findSome?_eq_some h
        simp only at hval
        by_cases hcons : consistent cw (dictInsert a var value) = true
        · rw [if_pos hcons] at hval
          have hspec := select_unassigned_spec cw d a var hsel
          have hnotin : var ∉ keys a := (lookup_eq_none_iff a var).mp hspec.2
          have hany : ¬a.any (fun p => decide (p.1 = var)) = true := by
            simp only [List.any_eq_true, decide_eq_true_eq]
            rintro ⟨p, hp, hpv⟩
            exact hnotin (List.mem_map.mpr ⟨p, hp, hpv⟩)
          have hins : dictInsert a var value = a ++ [(var, value)] := by
            rw [dictInsert, if_neg hany]
          have hsub2 : ∀ p ∈ dictInsert a var value, p.1 ∈ cw.vars := by
            rw [hins]
            intro p hp
            rcases List.mem_append.mp hp with hp | hp
            · exact hsub p hp
            · have : p = (var, value) := by simpa using hp
              rw [this]
              exact hspec.1
          have hnd2 : (keys (dictInsert a var value)).Nodup := by
            have hke : keys (a ++ [(var, value)]) = keys a ++ [var] := by
              simp [keys]
            rw [hins, hke]
            exact List.Nodup.append hnd (by simp)
              ((List.disjoint_singleton).mpr hnotin)
          obtain ⟨c1, c2, c3, c4⟩ := ih (dictInsert a var value) r hsub2 hnd2 hval
          refine ⟨c1, c2, c3, Or.inr ?_⟩
          rcases c4 with rfl | hcr
          · exact hcons
          · exact hcr
        · rw [if_neg hcons] at hval
          cases hval

/-- C1: every non-`None` result of `backtrack` started (as `solve` starts
it) from the empty assignment assigns a word to every slot, all assigned
words are pairwise distinct, every assigned word's length equals its slot's
length, and every pair of distinct overlapping assigned slots agrees
character-wise at the overlap indices. -/
theorem backtrack_result_valid (cw : Crossword) (d : Domains) (fuel : Nat)
    (r : Assignment) (h : backtrack cw d fuel [] = some r) :
    CompleteAssigned cw r ∧ DistinctWords r ∧ LengthOk r ∧
      OverlapsAgree cw r := by
  obtain ⟨c1, c2, c3, c4⟩ :=
    backtrack_aux cw d fuel [] r (by simp) (by simp [keys]) h
  have hcons : consistent cw r = true := by
    rcases c4 with rfl | hcr
    · simp [consistent, values, keys]
    · exact hcr
  have hsem := (consistent_iff_aux cw r c2 c3).mp hcons
  have hcomp : ∀ v ∈ cw.vars, v ∈ keys r := by
    simp only [assignment_complete, Bool.and_eq_true, List.all_eq_true,
      decide_eq_true_eq] at c1
    exact c1.1.2
  refine ⟨?_, hsem.1, hsem.2.1, hsem.2.2⟩
  intro v hv
  obtain ⟨p, hp, rfl⟩ := List.mem_map.mp (hcomp v hv)
  exact ⟨p.2, lookup_of_mem_nodup r c3 p.1 p.2 hp⟩

/-- Witness for C1: on the one-slot puzzle `cwW` the search succeeds and
the returned assignment satisfies all four properties. -/
theorem backtrack_result_valid_w :
    backtrack cwW dW 2 [] = some [(vW, ['a'])] ∧
      (CompleteAssigned cwW [(vW, ['a'])] ∧ DistinctWords [(vW, ['a'])] ∧
        LengthOk [(vW, ['a'])] ∧ OverlapsAgree cwW [(vW, ['a'])]) :=
  ⟨by decide, backtrack_result_valid cwW dW 2 [(vW, ['a'])] (by decide)⟩

/-! ## Claim C8 — least-constraining-value ordering -/

/-- C8: `order_domain_values` returns exactly the words of `Domain(var)`
(as a permutation; the domain, a Python set, has no duplicates), ordered
ascending by the number of (unassigned neighbor, neighbor-domain word)
pairs whose overlap characters disagree with the candidate — and, being a
pure function of the domains, mutates none of them. -/
theorem order_domain_values_spec (cw : Crossword) (d : Domains)
    (var : Variable) (a : Assignment) (hnd : (d var).Nodup) :
    (order_domain_values cw d var a).Perm (d var) ∧
      (order_domain_values cw d var a).Pairwise
        (fun w1 w2 =>
          num_eliminated cw d a var w1 ≤ num_eliminated cw d a var w2) := by
  constructor
  · have hperm :=
      (List.perm_insertionSort (fun p q : Word × Nat => p.2 ≤ q.2)
        ((d var).map (fun w => (w, num_eliminated cw d a var w)))).map Prod.fst
    rw [order_domain_values]
    refine hperm.trans ?_
    rw [List.map_map]
    have : Prod.fst ∘ (fun w => (w, num_eliminated cw d a var w)) = id := rfl
    rw [this, List.map_id]
  · have hsorted :=
      @List.sorted_insertionSort (Word × Nat)
        (fun p q => p.2 ≤ q.2) (fun _ _ => Nat.decLe _ _)
        ⟨fun p q => Nat.le_total p.2 q.2⟩
        ⟨fun _ _ _ hab hbc => le_trans hab hbc⟩
        ((d var).map (fun w => (w, num_eliminated cw d a var w)))
    have hmemc : ∀ p ∈ List.insertionSort (fun p q : Word × Nat => p.2 ≤ q.2)
        ((d var).map (fun w => (w, num_eliminated cw d a var w))),
        p.2 = num_eliminated cw d a var p.1 := by
      intro p hp
      have hm := (List.perm_insertionSort _ _).subset hp
      obtain ⟨w, _, heq⟩ := List.mem_map.mp hm
      rw [← heq]
    rw [order_domain_values]
    rw [List.pairwise_map]
    exact hsorted.imp_of_mem (fun hp hq h =>
      (hmemc _ hp) ▸ (hmemc _ hq) ▸ h)

/-- Witness for C8 on a concrete domain. -/
theorem order_domain_values_spec_w :
    (dXY vX).Nodup ∧
      ((order_domain_values cwXY dXY vX []).Perm (dXY vX) ∧
        (order_domain_values cwXY dXY vX []).Pairwise
          (fun w1 w2 =>
            num_eliminated cwXY dXY [] vX w1 ≤
              num_eliminated cwXY dXY [] vX w2)) :=
  ⟨by decide, order_domain_values_spec cwXY dXY vX [] (by decide)⟩

/-! ## Claim C9 — `backtrack` never mutates the caller's assignment -/

/-- Reading with `getD` is unchanged by `set` at a different index. -/
theorem getD_set_ne (l : Store) (n : Nat) (x : Assignment) (i : Nat)
    (h : i ≠ n) : (l.set n x).getD i [] = l.getD i [] := by
  rw [List.getD_eq_getElem?_getD, List.getD_eq_getElem?_getD,
    List.getElem?_set_ne (Ne.symm h)]

/-- A fold whose step preserves a predicate preserves it overall. -/
theorem foldl_preserve {α : Type} {P : Store × Option Nat → Prop}
    (f : Store × Option Nat → α → Store × Option Nat)
    (hf : ∀ s x, P s → P (f s x)) :
    ∀ (l : List α) (s : Store × Option Nat), P s → P (l.foldl f s) := by
  intro l
  induction l with
  | nil =>
    intro s h
    exact h
  | cons x xs ih =>
    intro s h
    exact ih _ (hf s x h)

/-- Frame property of the store-level backtracking model: the store only
grows, and every dict object that existed before the call is bit-for-bit
unchanged after it. -/
theorem btStore_frame (cw : Crossword) (d : Domains) :
    ∀ (fuel : Nat) (store : Store) (r : Nat),
      store.length ≤ (btStore cw d fuel store r).1.length ∧
        ∀ i < store.length,
          (btStore cw d fuel store r).1.getD i [] = store.getD i [] := by
  intro fuel
  induction fuel with
  | zero =>
    intro store r
    exact ⟨le_refl _, fun i _ => rfl⟩
  | succ fuel ih =>
    intro store r
    rw [btStore]
    by_cases hc : assignment_complete cw (store.getD r []) = true
    · rw [if_pos hc]
      exact ⟨le_refl _, fun i _ => rfl⟩
    · rw [if_neg hc]
      rcases hsel : select_unassigned_variable cw d (store.getD r [])
        with _ | var
      · exact ⟨le_refl _, fun i _ => rfl⟩
      · refine @foldl_preserve Word
          (fun s => store.length ≤ s.1.length ∧
            ∀ i < store.length, s.1.getD i [] = store.getD i [])
          _ ?_ _ (store, none) ⟨le_refl _, fun i _ => rfl⟩
        rintro ⟨st, res⟩ value ⟨hlen, hpres⟩
        rcases res with _ | rr
        · simp only
          have hlen2 :
              store.length ≤ ((st ++ [st.getD r []]).set st.length
                (dictInsert ((st ++ [st.getD r []]).getD st.length [])
                  var value)).length := by
            rw [List.length_set, List.length_append]
            exact le_trans hlen (Nat.le_add_right _ _)
          have hpres2 : ∀ i < store.length,
              ((st ++ [st.getD r []]).set st.length
                (dictInsert ((st ++ [st.getD r []]).getD st.length [])
                  var value)).getD i [] = store.getD i [] := by
            intro i hi
            have hilt : i < st.length := lt_of_lt_of_le hi hlen
            rw [getD_set_ne _ _ _ _ (Nat.ne_of_lt hilt),
              List.getD_append _ _ _ _ hilt]
            exact hpres i hi
          by_cases hcons : consistent cw
              (((st ++ [st.getD r []]).set st.length
                (dictInsert ((st ++ [st.getD r []]).getD st.length [])
                  var value)).getD st.length []) = true
          · rw [if_pos hcons]
            obtain ⟨hl3, hp3⟩ := ih (((st ++ [st.getD r []]).set st.length
              (dictInsert ((st ++ [st.getD r []]).getD st.length [])
                var value))) st.length
            refine ⟨le_trans hlen2 hl3, fun i hi => ?_⟩
            rw [hp3 i (lt_of_lt_of_le hi hlen2)]
            exact hpres2 i hi
          · rw [if_neg hcons]
            exact ⟨hlen2, hpres2⟩
        · exact ⟨hlen, hpres⟩

/-- C9: the operational dict-object model of `backtrack` (`btStore`) never
mutates the assignment object passed to it, nor any other pre-existing
assignment object: every tentative extension is made on a freshly
allocated copy, so after the call — successful or failed — every dict that
existed before holds exactly its old bindings. -/
theorem backtrack_no_mutation (cw : Crossword) (d : Domains) (fuel : Nat)
    (store : Store) (r : Nat) (i : Nat) (h : i < store.length) :
    (btStore cw d fuel store r).1.getD i [] = store.getD i [] :=
  (btStore_frame cw d fuel store r).2 i h

/-- Witness for C9: the caller's (empty) assignment object at reference 0
is unchanged by a search that binds a variable. -/
theorem backtrack_no_mutation_w :
    0 < ([([] : Assignment)] : Store).length ∧
      (btStore cwW dW 3 [([] : Assignment)] 0).1.getD 0 [] =
        ([([] : Assignment)] : Store).getD 0 [] :=
  ⟨by decide, backtrack_no_mutation cwW dW 3 [([] : Assignment)] 0 0 (by decide)⟩
